import Mathlib

/-!
# Verification of `latin1str`

Shallow embedding of the `latin1str` crate (src/lib.rs): two wrapper types
over nul-free WINDOWS-1252 byte strings, together with the conversions to
and from Unicode text.

Modelling choices:
* Byte sequences are `List Nat` with values < 256; Unicode text is a
  `List Nat` of scalar values (the sequence of `char`s of a Rust `&str`).
* `Cow` models Rust's `std::borrow::Cow`: a tag distinguishing a borrowed
  view from freshly allocated storage, with the payload carried in both.
* The external codec collaborator (`encoding_rs::WINDOWS_1252`) is embedded
  by its documented, standardized behavior. Decode first performs BOM
  sniffing (the UTF-8 BOM reroutes the remainder to the WHATWG UTF-8
  decoder with replacement, the UTF-16 BOMs to the WHATWG UTF-16 decoders);
  BOM-free input is mapped bytewise through the WHATWG `windows-1252`
  index and borrows exactly when it is pure ASCII. Encode maps a scalar to
  its single byte when the index has one, otherwise emits the decimal HTML
  entity `&#N;`, and borrows exactly when the input text is pure ASCII
  (the only case in which the output bytes coincide with the input's
  UTF-8 bytes).
* The `BufRead` stream of `read_cstring` is a `Reader`: the bytes still
  available, followed by either end-of-stream or an I/O error code.
-/

namespace Latin1

/-- Model of Rust's `std::borrow::Cow`: borrowed view or owned storage. -/
inductive Cow (α : Type) : Type
  | borrowed : α → Cow α
  | owned : α → Cow α
  deriving DecidableEq

/-- The payload of a `Cow`, ignoring ownership. -/
def Cow.value {α : Type} : Cow α → α
  | .borrowed a => a
  | .owned a => a

/-- Whether a `Cow` is the borrowed (non-allocating) variant. -/
def Cow.isBorrowed {α : Type} : Cow α → Bool
  | .borrowed _ => true
  | .owned _ => false

/-- The borrowed latin-1 string slice `Latin1Str` (`#[repr(transparent)]`
wrapper over `[u8]`). -/
structure Latin1Str where
  inner : List Nat
  deriving DecidableEq

/-- The owned latin-1 string `Latin1String` (`#[repr(transparent)]`
wrapper over `Box<[u8]>`). -/
structure Latin1String where
  inner : List Nat
  deriving DecidableEq

/-! ## The codec collaborator: WHATWG windows-1252, as encoding_rs exposes it -/

/-- The WHATWG `windows-1252` decode index: the Unicode scalar value of
byte `b`.  Bytes 0x00–0x7F and 0xA0–0xFF map to themselves; 0x80–0x9F map
through the table below (the five entries 0x81, 0x8D, 0x8F, 0x90, 0x9D map
to the C1 controls of the same value). -/
def w1252DecodeByte (b : Nat) : Nat :=
  if b < 0x80 then b
  else if 0xA0 ≤ b then b
  else match b with
    | 0x80 => 0x20AC
    | 0x82 => 0x201A
    | 0x83 => 0x0192
    | 0x84 => 0x201E
    | 0x85 => 0x2026
    | 0x86 => 0x2020
    | 0x87 => 0x2021
    | 0x88 => 0x02C6
    | 0x89 => 0x2030
    | 0x8A => 0x0160
    | 0x8B => 0x2039
    | 0x8C => 0x0152
    | 0x8E => 0x017D
    | 0x91 => 0x2018
    | 0x92 => 0x2019
    | 0x93 => 0x201C
    | 0x94 => 0x201D
    | 0x95 => 0x2022
    | 0x96 => 0x2013
    | 0x97 => 0x2014
    | 0x98 => 0x02DC
    | 0x99 => 0x2122
    | 0x9A => 0x0161
    | 0x9B => 0x203A
    | 0x9C => 0x0153
    | 0x9E => 0x017E
    | 0x9F => 0x0178
    | b => b

/-- The WHATWG `windows-1252` encode index: the byte of scalar value `c`,
when the encoding has one (the inverse of `w1252DecodeByte`). -/
def w1252EncodeChar (c : Nat) : Option Nat :=
  if c < 0x80 then some c
  else if 0xA0 ≤ c ∧ c ≤ 0xFF then some c
  else match c with
    | 0x81 => some 0x81
    | 0x8D => some 0x8D
    | 0x8F => some 0x8F
    | 0x90 => some 0x90
    | 0x9D => some 0x9D
    | 0x20AC => some 0x80
    | 0x201A => some 0x82
    | 0x0192 => some 0x83
    | 0x201E => some 0x84
    | 0x2026 => some 0x85
    | 0x2020 => some 0x86
    | 0x2021 => some 0x87
    | 0x02C6 => some 0x88
    | 0x2030 => some 0x89
    | 0x0160 => some 0x8A
    | 0x2039 => some 0x8B
    | 0x0152 => some 0x8C
    | 0x017D => some 0x8E
    | 0x2018 => some 0x91
    | 0x2019 => some 0x92
    | 0x201C => some 0x93
    | 0x201D => some 0x94
    | 0x2022 => some 0x95
    | 0x2013 => some 0x96
    | 0x2014 => some 0x97
    | 0x02DC => some 0x98
    | 0x2122 => some 0x99
    | 0x0161 => some 0x9A
    | 0x203A => some 0x9B
    | 0x0153 => some 0x9C
    | 0x017E => some 0x9E
    | 0x0178 => some 0x9F
    | _ => none

/-- The UTF-8 byte sequence of one Unicode scalar value. -/
def utf8Char (c : Nat) : List Nat :=
  if c < 0x80 then [c]
  else if c < 0x800 then [0xC0 + c / 64, 0x80 + c % 64]
  else if c < 0x10000 then [0xE0 + c / 4096, 0x80 + c / 64 % 64, 0x80 + c % 64]
  else [0xF0 + c / 262144, 0x80 + c / 4096 % 64, 0x80 + c / 64 % 64, 0x80 + c % 64]

/-- The UTF-8 byte sequence of a Unicode string (how Rust stores a `&str`). -/
def utf8 (s : List Nat) : List Nat := (s.map utf8Char).flatten

/-- The ASCII bytes of the decimal HTML entity `&#c;` that encoding_rs
substitutes for a scalar value the target encoding cannot represent. -/
def htmlEntity (c : Nat) : List Nat :=
  [0x26, 0x23] ++ (Nat.toDigits 10 c).map Char.toNat ++ [0x3B]

/-- The byte sequence `WINDOWS_1252.encode` produces for text `s`: each
scalar's byte when the index has one, otherwise its HTML entity. -/
def w1252EncodeBytes (s : List Nat) : List Nat :=
  (s.map fun c =>
    match w1252EncodeChar c with
    | some b => [b]
    | none => htmlEntity c).flatten

/-- Models `encoding_rs::WINDOWS_1252.encode`: total, and returns a
borrowed view of the input's own (UTF-8) bytes exactly when the input text
is pure ASCII — the only case in which no conversion is needed. -/
def w1252Encode (s : List Nat) : Cow (List Nat) :=
  if s.all (· < 0x80) then .borrowed (utf8 s) else .owned (w1252EncodeBytes s)

/-- Whether a byte is a UTF-8 continuation byte. -/
def isContByte (b : Nat) : Bool := decide (0x80 ≤ b ∧ b ≤ 0xBF)

/-- Whether a byte sequence is valid UTF-8 (RFC 3629: no overlong forms,
no surrogates, scalar values at most U+10FFFF). -/
def isValidUTF8 : List Nat → Bool
  | [] => true
  | a :: l =>
    if a ≤ 0x7F then isValidUTF8 l
    else if 0xC2 ≤ a ∧ a ≤ 0xDF then
      match l with
      | b :: l₂ => isContByte b && isValidUTF8 l₂
      | [] => false
    else if a = 0xE0 then
      match l with
      | b :: c :: l₃ => (decide (0xA0 ≤ b ∧ b ≤ 0xBF) && isContByte c) && isValidUTF8 l₃
      | _ => false
    else if (0xE1 ≤ a ∧ a ≤ 0xEC) ∨ (0xEE ≤ a ∧ a ≤ 0xEF) then
      match l with
      | b :: c :: l₃ => (isContByte b && isContByte c) && isValidUTF8 l₃
      | _ => false
    else if a = 0xED then
      match l with
      | b :: c :: l₃ => (decide (0x80 ≤ b ∧ b ≤ 0x9F) && isContByte c) && isValidUTF8 l₃
      | _ => false
    else if a = 0xF0 then
      match l with
      | b :: c :: d :: l₄ =>
        ((decide (0x90 ≤ b ∧ b ≤ 0xBF) && isContByte c) && isContByte d) && isValidUTF8 l₄
      | _ => false
    else if 0xF1 ≤ a ∧ a ≤ 0xF3 then
      match l with
      | b :: c :: d :: l₄ =>
        ((isContByte b && isContByte c) && isContByte d) && isValidUTF8 l₄
      | _ => false
    else if a = 0xF4 then
      match l with
      | b :: c :: d :: l₄ =>
        ((decide (0x80 ≤ b ∧ b ≤ 0x8F) && isContByte c) && isContByte d) && isValidUTF8 l₄
      | _ => false
    else false

/-- One pass of the WHATWG UTF-8 decoder with replacement, with explicit
fuel for the step count: each step consumes at least one byte, so fuel
equal to the byte count never runs out. Errors emit U+FFFD and resume at
the offending byte; end-of-stream inside a sequence yields one U+FFFD. -/
def utf8DecodeGo : Nat → List Nat → List Nat
  | 0, _ => []
  | _, [] => []
  | fuel + 1, a :: l =>
    if a ≤ 0x7F then a :: utf8DecodeGo fuel l
    else if 0xC2 ≤ a ∧ a ≤ 0xDF then
      match l with
      | b :: l₂ =>
        if isContByte b then ((a - 0xC0) * 64 + (b - 0x80)) :: utf8DecodeGo fuel l₂
        else 0xFFFD :: utf8DecodeGo fuel (b :: l₂)
      | [] => [0xFFFD]
    else if 0xE0 ≤ a ∧ a ≤ 0xEF then
      match l with
      | b :: l₂ =>
        if (if a = 0xE0 then 0xA0 else 0x80) ≤ b ∧ b ≤ (if a = 0xED then 0x9F else 0xBF) then
          match l₂ with
          | c :: l₃ =>
            if isContByte c then
              ((a - 0xE0) * 4096 + (b - 0x80) * 64 + (c - 0x80)) :: utf8DecodeGo fuel l₃
            else 0xFFFD :: utf8DecodeGo fuel (c :: l₃)
          | [] => [0xFFFD]
        else 0xFFFD :: utf8DecodeGo fuel (b :: l₂)
      | [] => [0xFFFD]
    else if 0xF0 ≤ a ∧ a ≤ 0xF4 then
      match l with
      | b :: l₂ =>
        if (if a = 0xF0 then 0x90 else 0x80) ≤ b ∧ b ≤ (if a = 0xF4 then 0x8F else 0xBF) then
          match l₂ with
          | c :: l₃ =>
            if isContByte c then
              match l₃ with
              | d :: l₄ =>
                if isContByte d then
                  ((a - 0xF0) * 262144 + (b - 0x80) * 4096 + (c - 0x80) * 64 + (d - 0x80))
                    :: utf8DecodeGo fuel l₄
                else 0xFFFD :: utf8DecodeGo fuel (d :: l₄)
              | [] => [0xFFFD]
            else 0xFFFD :: utf8DecodeGo fuel (c :: l₃)
          | [] => [0xFFFD]
        else 0xFFFD :: utf8DecodeGo fuel (b :: l₂)
      | [] => [0xFFFD]
    else 0xFFFD :: utf8DecodeGo fuel l

/-- The WHATWG UTF-8 decoder with replacement: decodes bytes to scalar
values. -/
def utf8Decode (l : List Nat) : List Nat := utf8DecodeGo l.length l

/-- One pass of the WHATWG UTF-16 decoder with replacement, over bytes
(`le` selects little-endian), with explicit fuel for the step count (each
step consumes at least one byte): pairs bytes into code units, combines
surrogate pairs, emits U+FFFD for an unpaired surrogate (resuming at the
following unit), and emits one U+FFFD when the stream ends inside a unit
or with a pending lead surrogate. -/
def utf16DecodeGo (le : Bool) : Nat → List Nat → List Nat
  | 0, _ => []
  | _, [] => []
  | _ + 1, [_] => [0xFFFD]
  | fuel + 1, b₁ :: b₂ :: rest =>
    let u := if le then b₂ * 256 + b₁ else b₁ * 256 + b₂
    if 0xD800 ≤ u ∧ u ≤ 0xDBFF then
      match rest with
      | c₁ :: c₂ :: rest₂ =>
        let v := if le then c₂ * 256 + c₁ else c₁ * 256 + c₂
        if 0xDC00 ≤ v ∧ v ≤ 0xDFFF then
          (0x10000 + (u - 0xD800) * 0x400 + (v - 0xDC00)) :: utf16DecodeGo le fuel rest₂
        else 0xFFFD :: utf16DecodeGo le fuel (c₁ :: c₂ :: rest₂)
      | _ => [0xFFFD]
    else if 0xDC00 ≤ u ∧ u ≤ 0xDFFF then 0xFFFD :: utf16DecodeGo le fuel rest
    else u :: utf16DecodeGo le fuel rest

/-- The WHATWG UTF-16 decoder with replacement, over bytes (`le` selects
little-endian). -/
def utf16DecodeBytes (le : Bool) (l : List Nat) : List Nat :=
  utf16DecodeGo le l.length l

/-- Whether a byte sequence begins with one of the three byte-order marks
that the BOM sniffing of `encoding_rs::Encoding::decode` recognizes
(UTF-8, UTF-16LE, UTF-16BE). -/
def startsWithBOM (b : List Nat) : Bool :=
  decide (b.take 3 = [0xEF, 0xBB, 0xBF]) ||
    (decide (b.take 2 = [0xFF, 0xFE]) || decide (b.take 2 = [0xFE, 0xFF]))

/-- Models `encoding_rs::WINDOWS_1252.decode`, including its documented
BOM sniffing: a UTF-8 BOM reroutes decoding of the remainder to the
UTF-8 decoder, borrowing exactly when the remainder is valid UTF-8; a
UTF-16 BOM reroutes to the corresponding UTF-16 decoder, which always
allocates; otherwise every byte is mapped through the windows-1252
index, borrowing exactly when the input is pure ASCII — the only case in
which the decoded text's UTF-8 bytes coincide with the input. -/
def w1252Decode (b : List Nat) : Cow (List Nat) :=
  if b.take 3 = [0xEF, 0xBB, 0xBF] then
    if isValidUTF8 (b.drop 3) then .borrowed (utf8Decode (b.drop 3))
    else .owned (utf8Decode (b.drop 3))
  else if b.take 2 = [0xFF, 0xFE] then .owned (utf16DecodeBytes true (b.drop 2))
  else if b.take 2 = [0xFE, 0xFF] then .owned (utf16DecodeBytes false (b.drop 2))
  else if b.all (· < 0x80) then .borrowed (b.map w1252DecodeByte)
  else .owned (b.map w1252DecodeByte)

/-! ## The view type `Latin1Str` -/

/-- Source `memchr::memchr`: index of the first occurrence of `needle`. -/
def memchr (needle : Nat) (haystack : List Nat) : Option Nat :=
  haystack.findIdx? (· == needle)

/-- Source `Latin1Str::as_bytes`: the underlying bytes. -/
def Latin1Str.as_bytes (s : Latin1Str) : List Nat := s.inner

/-- Source `Latin1Str::len`. -/
def Latin1Str.len (s : Latin1Str) : Nat := s.inner.length

/-- Source `Latin1Str::is_empty`. -/
def Latin1Str.is_empty (s : Latin1Str) : Bool := s.inner.isEmpty

/-- Source `Latin1Str::from_bytes_until_nul`: wrap all bytes before the first
nul. -/
def Latin1Str.from_bytes_until_nul (bytes : List Nat) : Latin1Str :=
  match memchr 0 bytes with
  | some nullpos => ⟨bytes.take nullpos⟩
  | none => ⟨bytes⟩

/-- Source `Latin1Str::new` (deprecated): alias of `from_bytes_until_nul`. -/
def Latin1Str.new (bytes : List Nat) : Latin1Str :=
  Latin1Str.from_bytes_until_nul bytes

/-- Source `Latin1Str::decode`: `WINDOWS_1252.decode(self.as_bytes()).0`. -/
def Latin1Str.decode (s : Latin1Str) : Cow (List Nat) :=
  w1252Decode s.as_bytes

/-- Source `<Latin1Str as ToOwned>::to_owned`: copy the bytes into owned
storage. -/
def Latin1Str.to_owned (s : Latin1Str) : Latin1String :=
  ⟨s.as_bytes⟩

/-! ## The owned type `Latin1String` -/

/-- Source `<Latin1String as Borrow<Latin1Str>>::borrow` (also `Deref`): view of
the owned buffer. -/
def Latin1String.borrow (s : Latin1String) : Latin1Str := ⟨s.inner⟩

/-- Source `Latin1String::as_bytes`, reached through `Deref`. -/
def Latin1String.as_bytes (s : Latin1String) : List Nat :=
  s.borrow.as_bytes

/-- Source `Latin1String::encode`: encode through the codec, re-wrapping each
`Cow` variant as the same variant over `Latin1Str`. -/
def Latin1String.encode (string : List Nat) : Cow Latin1Str :=
  match w1252Encode string with
  | .owned o => .owned ⟨o⟩
  | .borrowed b => .borrowed ⟨b⟩

/-- The state of a `BufRead` stream: the bytes still available, then
either end-of-stream (`err = none`) or an I/O error with code `e`
(`err = some e`). -/
structure Reader where
  data : List Nat
  err : Option Nat
  deriving DecidableEq

/-- Source `BufRead::read_until(0x00, ..)` on a fresh buffer: read bytes up to
and including the first nul; if the stream ends first, return everything
read; an I/O error reached before a nul is reported to the caller. -/
def readUntilNul (r : Reader) : Except Nat (List Nat × Reader) :=
  match r.data.findIdx? (· == 0) with
  | some i => .ok (r.data.take (i + 1), ⟨r.data.drop (i + 1), r.err⟩)
  | none =>
    match r.err with
    | some e => .error e
    | none => .ok (r.data, ⟨[], none⟩)

/-- Source `Latin1String::read_cstring`: read until a nul, pop the trailing nul
if present, and wrap the bytes. -/
def Latin1String.read_cstring (r : Reader) :
    Except Nat (Latin1String × Reader) :=
  match readUntilNul r with
  | .error e => .error e
  | .ok (string, rest) =>
    let string := if string.getLast? = some 0 then string.dropLast else string
    .ok (⟨string⟩, rest)

/-! ## Derived equality and ordering -/

/-- Source `<[u8] as Ord>::cmp`: lexicographic comparison of byte slices, a
shorter strict prefix comparing less. -/
def sliceCmp : List Nat → List Nat → Ordering
  | [], [] => .eq
  | [], _ :: _ => .lt
  | _ :: _, [] => .gt
  | a :: l₁, b :: l₂ =>
    match compare a b with
    | .eq => sliceCmp l₁ l₂
    | o => o

/-- Source `#[derive(PartialEq)]` on `Latin1Str`: equality of the wrapped
bytes. -/
def Latin1Str.eq (a b : Latin1Str) : Bool := a.inner == b.inner

/-- Source `#[derive(Ord)]` on `Latin1Str`: comparison of the wrapped bytes. -/
def Latin1Str.cmp (a b : Latin1Str) : Ordering := sliceCmp a.inner b.inner

/-- Source `#[derive(PartialEq)]` on `Latin1String`: equality of the wrapped
buffers. -/
def Latin1String.eq (a b : Latin1String) : Bool := a.inner == b.inner

/-- Source `#[derive(Ord)]` on `Latin1String`: comparison of the wrapped
buffers. -/
def Latin1String.cmp (a b : Latin1String) : Ordering :=
  sliceCmp a.inner b.inner

/-- The byte sequence obtained by decoding bytes `b` to text and encoding
the text back, through the crate's `Latin1Str::decode` and
`Latin1String::encode`. -/
def encodeDecode (b : List Nat) : List Nat :=
  ((Latin1String.encode ((Latin1Str.decode ⟨b⟩).value)).value).as_bytes

/-! ## Helper lemmas -/

theorem memchr_eq_none {b : List Nat} (h : 0 ∉ b) : memchr 0 b = none := by
  unfold memchr
  rw [List.findIdx?_eq_none_iff]
  intro x hx
  simp only [beq_eq_false_iff_ne, ne_eq]
  exact fun e => h (e ▸ hx)

theorem findIdx?_nul_first {b : List Nat} {i : Nat} (hi : i < b.length)
    (hz : b.getD i 1 = 0) (hmin : ∀ j, j < i → b.getD j 1 ≠ 0) :
    b.findIdx? (· == 0) = some i := by
  induction b generalizing i with
  | nil => simp at hi
  | cons a l ih =>
    rw [List.findIdx?_cons]
    cases i with
    | zero =>
      rw [List.getD_cons_zero] at hz
      simp [hz]
    | succ n =>
      have ha : a ≠ 0 := by
        have h0 := hmin 0 (Nat.succ_pos n)
        rwa [List.getD_cons_zero] at h0
      rw [if_neg (by simpa using ha), List.findIdx?_succ]
      have hrec : l.findIdx? (· == 0) = some n := by
        refine ih (by simpa using hi) (by simpa using hz) ?_
        intro j hj
        have := hmin (j + 1) (Nat.succ_lt_succ hj)
        rwa [List.getD_cons_succ] at this
      rw [hrec]
      rfl

theorem findIdx?_nul_none_iff {b : List Nat} :
    b.findIdx? (· == 0) = none ↔ 0 ∉ b := by
  rw [List.findIdx?_eq_none_iff]
  constructor
  · intro h hm
    have := h 0 hm
    simp at this
  · intro h x hx
    simp only [beq_eq_false_iff_ne, ne_eq]
    exact fun e => h (e ▸ hx)

theorem read_cstring_isOk_of_find {r : Reader} {i : Nat}
    (hf : r.data.findIdx? (· == 0) = some i) :
    ∃ v, Latin1String.read_cstring r = .ok v := by
  unfold Latin1String.read_cstring readUntilNul
  rw [hf]
  exact ⟨_, rfl⟩

theorem read_cstring_of_none_some {r : Reader} {e : Nat}
    (hf : r.data.findIdx? (· == 0) = none) (he : r.err = some e) :
    Latin1String.read_cstring r = .error e := by
  unfold Latin1String.read_cstring readUntilNul
  rw [hf, he]

theorem read_cstring_of_none_none {r : Reader}
    (hf : r.data.findIdx? (· == 0) = none) (hn : 0 ∉ r.data) (he : r.err = none) :
    Latin1String.read_cstring r = .ok (⟨r.data⟩, ⟨[], none⟩) := by
  unfold Latin1String.read_cstring readUntilNul
  rw [hf, he]
  have hlast : r.data.getLast? ≠ some 0 := by
    intro hl
    obtain ⟨ys, hys⟩ := List.getLast?_eq_some_iff.mp hl
    exact hn (by simp [hys])
  simp only [if_neg hlast]

theorem all_ascii_iff (s : List Nat) :
    s.all (· < 0x80) = true ↔ ∀ c ∈ s, c < 0x80 := by
  simp [List.all_eq_true]

theorem w1252DecodeByte_of_ascii {b : Nat} (h : b < 0x80) :
    w1252DecodeByte b = b := by
  unfold w1252DecodeByte
  rw [if_pos h]

theorem w1252DecodeByte_ge {b : Nat} (h₁ : 0x80 ≤ b) (h₂ : b < 256) :
    0x80 ≤ w1252DecodeByte b := by
  by_cases h₃ : 0xA0 ≤ b
  · unfold w1252DecodeByte
    rw [if_neg (by omega), if_pos h₃]
    omega
  · have h₄ : b < 0xA0 := by omega
    interval_cases b <;> decide

theorem w1252_enc_dec {b : Nat} (hb : b < 256) :
    w1252EncodeChar (w1252DecodeByte b) = some b := by
  by_cases h₁ : b < 0x80
  · unfold w1252DecodeByte w1252EncodeChar
    rw [if_pos h₁, if_pos h₁]
  · by_cases h₂ : 0xA0 ≤ b
    · unfold w1252DecodeByte w1252EncodeChar
      rw [if_neg h₁, if_pos h₂, if_neg h₁, if_pos ⟨h₂, by omega⟩]
    · have h₃ : 0x80 ≤ b := by omega
      have h₄ : b < 0xA0 := by omega
      interval_cases b <;> decide

theorem utf8_of_ascii {s : List Nat} (h : ∀ c ∈ s, c < 0x80) :
    utf8 s = s := by
  induction s with
  | nil => rfl
  | cons a l ih =>
    have ha : utf8Char a = [a] := by
      unfold utf8Char
      rw [if_pos (h a (by simp))]
    have hl := ih fun c hc => h c (by simp [hc])
    unfold utf8 at hl ⊢
    rw [List.map_cons, List.flatten_cons, ha, hl]
    rfl

theorem w1252EncodeBytes_map_decode {b : List Nat} (hb : ∀ x ∈ b, x < 256) :
    w1252EncodeBytes (b.map w1252DecodeByte) = b := by
  induction b with
  | nil => rfl
  | cons a l ih =>
    have ihl := ih fun x hx => hb x (by simp [hx])
    unfold w1252EncodeBytes at ihl ⊢
    rw [List.map_cons, List.map_cons, List.flatten_cons]
    simp only [w1252_enc_dec (hb a (by simp))]
    rw [ihl]
    rfl

theorem w1252Decode_of_noBOM {b : List Nat} (h : startsWithBOM b = false) :
    w1252Decode b =
      if b.all (· < 0x80) then Cow.borrowed (b.map w1252DecodeByte)
      else Cow.owned (b.map w1252DecodeByte) := by
  unfold startsWithBOM at h
  simp only [Bool.or_eq_false_iff, decide_eq_false_iff_not] at h
  obtain ⟨h₁, h₂, h₃⟩ := h
  unfold w1252Decode
  rw [if_neg h₁, if_neg h₂, if_neg h₃]

theorem decode_value_of_noBOM {b : List Nat} (hbom : startsWithBOM b = false) :
    (Latin1Str.decode ⟨b⟩).value = b.map w1252DecodeByte := by
  have hdec : Latin1Str.decode ⟨b⟩ =
      if b.all (· < 0x80) then Cow.borrowed (b.map w1252DecodeByte)
      else Cow.owned (b.map w1252DecodeByte) := w1252Decode_of_noBOM hbom
  rw [hdec]
  split <;> rfl

theorem encode_value_bytes (s : List Nat) :
    (Latin1String.encode s).value.as_bytes =
      if s.all (· < 0x80) then utf8 s else w1252EncodeBytes s := by
  by_cases h : s.all (· < 0x80) <;>
    simp [Latin1String.encode, w1252Encode, h, Cow.value, Latin1Str.as_bytes]

theorem encode_isBorrowed_iff (s : List Nat) :
    (Latin1String.encode s).isBorrowed = true ↔ ∀ c ∈ s, c < 0x80 := by
  rw [← all_ascii_iff]
  by_cases h : s.all (· < 0x80) <;>
    simp [Latin1String.encode, w1252Encode, h, Cow.isBorrowed]

theorem getD_map_decode {b : List Nat} {i : Nat} (h : b.getD i 0 = 0xFC) :
    (b.map w1252DecodeByte).getD i 0 = 0xFC := by
  induction b generalizing i with
  | nil => simp [List.getD] at h
  | cons a l ih =>
    cases i with
    | zero =>
      rw [List.getD_cons_zero] at h
      rw [List.map_cons, List.getD_cons_zero, h]
      decide
    | succ n =>
      rw [List.getD_cons_succ] at h
      rw [List.map_cons, List.getD_cons_succ]
      exact ih h

theorem sliceCmp_eq_iff {x y : List Nat} : sliceCmp x y = .eq ↔ x = y := by
  induction x generalizing y with
  | nil =>
    cases y with
    | nil => simp [sliceCmp]
    | cons b m => simp [sliceCmp]
  | cons a l ih =>
    cases y with
    | nil => simp [sliceCmp]
    | cons b m =>
      cases h : compare a b with
      | lt =>
        have hab : a < b := Nat.compare_eq_lt.mp h
        have hl : sliceCmp (a :: l) (b :: m) = .lt := by
          unfold sliceCmp
          rw [h]
        rw [hl]
        constructor
        · intro hc
          exact absurd hc (by decide)
        · intro hc
          injection hc with h₁ h₂
          omega
      | eq =>
        have hab : a = b := Nat.compare_eq_eq.mp h
        subst hab
        have hl : sliceCmp (a :: l) (a :: m) = sliceCmp l m := by
          conv_lhs => rw [sliceCmp]
          rw [h]
        rw [hl, ih]
        simp
      | gt =>
        have hab : b < a := Nat.compare_eq_gt.mp h
        have hl : sliceCmp (a :: l) (b :: m) = .gt := by
          unfold sliceCmp
          rw [h]
        rw [hl]
        constructor
        · intro hc
          exact absurd hc (by decide)
        · intro hc
          injection hc with h₁ h₂
          omega

theorem sliceCmp_lt_iff {x y : List Nat} :
    sliceCmp x y = .lt ↔ List.Lex (· < ·) x y := by
  induction x generalizing y with
  | nil =>
    cases y with
    | nil =>
      constructor
      · intro h
        exact absurd h (by decide)
      · intro h
        nomatch h
    | cons b m =>
      constructor
      · intro _
        exact List.Lex.nil
      · intro _
        rfl
  | cons a l ih =>
    cases y with
    | nil =>
      constructor
      · intro h
        exact absurd h (by simp [sliceCmp])
      · intro h
        nomatch h
    | cons b m =>
      cases h : compare a b with
      | lt =>
        have hab : a < b := Nat.compare_eq_lt.mp h
        have hl : sliceCmp (a :: l) (b :: m) = .lt := by
          unfold sliceCmp
          rw [h]
        rw [hl]
        constructor
        · intro _
          exact List.Lex.rel hab
        · intro _
          rfl
      | eq =>
        have hab : a = b := Nat.compare_eq_eq.mp h
        subst hab
        have hl : sliceCmp (a :: l) (a :: m) = sliceCmp l m := by
          conv_lhs => rw [sliceCmp]
          rw [h]
        rw [hl, ih]
        constructor
        · exact List.Lex.cons
        · intro hc
          cases hc with
          | cons hc => exact hc
          | rel hr => omega
      | gt =>
        have hab : b < a := Nat.compare_eq_gt.mp h
        have hl : sliceCmp (a :: l) (b :: m) = .gt := by
          unfold sliceCmp
          rw [h]
        rw [hl]
        constructor
        · intro hc
          exact absurd hc (by decide)
        · intro hc
          cases hc with
          | cons hc => omega
          | rel hr => omega


/-! ## Claims -/

/-- C1: the claimed invariant — that every value produced by a safe
operation is nul-free — is broken by the code: `Latin1String::encode`
passes the NUL scalar value U+0000 straight through the codec's ASCII
path, so `encode("\u{0}")` yields a (borrowed, unchecked) value whose
bytes contain 0x00, contradicting the crate's own "Contain no nul-bytes"
documentation. -/
theorem encode_nul_breaks_invariant :
    0 ∈ (Latin1String.encode [0]).value.as_bytes ∧
    (Latin1String.encode [0]).isBorrowed = true := by decide

/-- C2: `from_bytes_until_nul` never fails, returns the whole input when
it holds no 0x00 byte, and returns exactly the bytes strictly before the
first 0x00 otherwise. -/
theorem from_bytes_until_nul_spec (b : List Nat) :
    (0 ∉ b → (Latin1Str.from_bytes_until_nul b).as_bytes = b) ∧
    (∀ i, i < b.length → b.getD i 1 = 0 → (∀ j, j < i → b.getD j 1 ≠ 0) →
      (Latin1Str.from_bytes_until_nul b).as_bytes = b.take i) := by
  constructor
  · intro h
    unfold Latin1Str.from_bytes_until_nul
    rw [memchr_eq_none h]
    rfl
  · intro i hi hz hmin
    unfold Latin1Str.from_bytes_until_nul memchr
    rw [findIdx?_nul_first hi hz hmin]
    rfl

/-- Witness for C2 at the doc-test input `b"Hello\0World!"`. -/
theorem from_bytes_until_nul_spec_w :
    (Latin1Str.from_bytes_until_nul
        [0x48, 0x65, 0x6C, 0x6C, 0x6F, 0, 0x57, 0x6F, 0x72, 0x6C, 0x64, 0x21]).as_bytes
      = [0x48, 0x65, 0x6C, 0x6C, 0x6F] :=
  (from_bytes_until_nul_spec _).2 5 (by decide) (by decide) (by decide)

/-- C4: reading from a stream holding `b"Hello\0World"` yields the owned
bytes `b"Hello"`; the terminator is consumed but excluded, and `b"World"`
stays unconsumed in the stream. -/
theorem read_cstring_hello_world :
    Latin1String.read_cstring
        ⟨[0x48, 0x65, 0x6C, 0x6C, 0x6F, 0, 0x57, 0x6F, 0x72, 0x6C, 0x64], none⟩
      = .ok (⟨[0x48, 0x65, 0x6C, 0x6C, 0x6F]⟩,
             ⟨[0x57, 0x6F, 0x72, 0x6C, 0x64], none⟩) := by rfl

/-- C5: `read_cstring` fails exactly when the stream reaches its I/O
error before any terminator, and then surfaces that error unchanged;
end-of-stream with no terminator succeeds with the bytes read so far. -/
theorem read_cstring_error_spec (r : Reader) :
    (∀ e, Latin1String.read_cstring r = .error e ↔ (0 ∉ r.data ∧ r.err = some e)) ∧
    (0 ∉ r.data → r.err = none →
      Latin1String.read_cstring r = .ok (⟨r.data⟩, ⟨[], none⟩)) := by
  have hiff := findIdx?_nul_none_iff (b := r.data)
  constructor
  · intro e
    constructor
    · intro h
      cases hf : r.data.findIdx? (· == 0) with
      | some i =>
        obtain ⟨v, hv⟩ := read_cstring_isOk_of_find hf
        rw [hv] at h
        exact Except.noConfusion h
      | none =>
        cases he : r.err with
        | none =>
          rw [read_cstring_of_none_none hf (hiff.mp hf) he] at h
          exact Except.noConfusion h
        | some e₂ =>
          rw [read_cstring_of_none_some hf he] at h
          injection h with h
          exact ⟨hiff.mp hf, congrArg some h⟩
    · rintro ⟨hn, he⟩
      exact read_cstring_of_none_some (hiff.mpr hn) he
  · intro hn he
    exact read_cstring_of_none_none (hiff.mpr hn) hn he

/-- Witness for C5 at the spec's `b"NoTerminator"` stream. -/
theorem read_cstring_error_spec_w :
    Latin1String.read_cstring
        ⟨[0x4E, 0x6F, 0x54, 0x65, 0x72, 0x6D, 0x69, 0x6E, 0x61, 0x74, 0x6F, 0x72], none⟩
      = .ok (⟨[0x4E, 0x6F, 0x54, 0x65, 0x72, 0x6D, 0x69, 0x6E, 0x61, 0x74, 0x6F, 0x72]⟩,
             ⟨[], none⟩) :=
  (read_cstring_error_spec _).2 (by decide) rfl

/-- C3: encoding pure 7-bit-ASCII text yields a borrowed (non-allocating)
result whose bytes are exactly the UTF-8 bytes of the input. -/
theorem encode_ascii_borrowed (t : List Nat) (h : ∀ c ∈ t, c < 0x80) :
    (Latin1String.encode t).isBorrowed = true ∧
    (Latin1String.encode t).value.as_bytes = utf8 t := by
  refine ⟨(encode_isBorrowed_iff t).mpr h, ?_⟩
  rw [encode_value_bytes, if_pos ((all_ascii_iff t).mpr h)]

/-- Witness for C3 at the ASCII text "Hi". -/
theorem encode_ascii_borrowed_w :
    (Latin1String.encode [0x48, 0x69]).isBorrowed = true ∧
    (Latin1String.encode [0x48, 0x69]).value.as_bytes = utf8 [0x48, 0x69] :=
  encode_ascii_borrowed [0x48, 0x69] (by decide)

/-- C6 counterexample: the bytes `[0xC3, 0xA9]` are valid UTF-8 (they are
the encoding of "é"), yet `Latin1Str::decode` must reinterpret them as
"Ã©" and therefore allocates — the claim "borrowed exactly when the bytes
are valid UTF-8" fails here. -/
theorem decode_utf8_bytes_not_borrowed :
    isValidUTF8 [0xC3, 0xA9] = true ∧
    (Latin1Str.decode ⟨[0xC3, 0xA9]⟩).isBorrowed = false := by decide

/-- C6 (amended): `decode` is total, and on bytes that do not begin with
a byte-order mark — BOM-prefixed bytes are rerouted by the decoder's BOM
sniffing — it returns the windows-1252 reinterpretation of the bytes and
is a borrowed reference to the existing bytes exactly when they are pure
7-bit ASCII. -/
theorem decode_total_borrowed_iff_ascii (s : Latin1Str)
    (hbom : startsWithBOM s.as_bytes = false) :
    (Latin1Str.decode s).value = s.as_bytes.map w1252DecodeByte ∧
    ((Latin1Str.decode s).isBorrowed = true ↔ ∀ c ∈ s.as_bytes, c < 0x80) ∧
    ((Latin1Str.decode s).isBorrowed = true →
      (Latin1Str.decode s).value = s.as_bytes) := by
  have hdec : Latin1Str.decode s =
      if s.as_bytes.all (· < 0x80) then
        Cow.borrowed (s.as_bytes.map w1252DecodeByte)
      else Cow.owned (s.as_bytes.map w1252DecodeByte) :=
    w1252Decode_of_noBOM hbom
  have hval : (Latin1Str.decode s).value = s.as_bytes.map w1252DecodeByte := by
    rw [hdec]
    split <;> rfl
  have hborrow : (Latin1Str.decode s).isBorrowed = true ↔
      ∀ c ∈ s.as_bytes, c < 0x80 := by
    rw [← all_ascii_iff, hdec]
    by_cases h : s.as_bytes.all (· < 0x80) <;> simp [h, Cow.isBorrowed]
  refine ⟨hval, hborrow, ?_⟩
  intro hb
  have hascii := hborrow.mp hb
  rw [hval]
  calc s.as_bytes.map w1252DecodeByte
      = s.as_bytes.map id :=
        List.map_congr_left fun x hx => w1252DecodeByte_of_ascii (hascii x hx)
    _ = s.as_bytes := List.map_id s.as_bytes

/-- Witness for C6 (amended) at the ASCII byte string "A". -/
theorem decode_total_borrowed_iff_ascii_w :
    (Latin1Str.decode ⟨[0x41]⟩).isBorrowed = true :=
  (decode_total_borrowed_iff_ascii ⟨[0x41]⟩ (by decide)).2.1.mpr (by decide)

/-- C7: for both types, the derived equality holds exactly on equal byte
sequences, and the derived comparison is the lexicographic order on the
raw bytes (stated against Mathlib's lexicographic order on lists). -/
theorem eq_ord_bytewise :
    (∀ a b : Latin1Str, Latin1Str.eq a b = true ↔ a.as_bytes = b.as_bytes) ∧
    (∀ a b : Latin1Str, Latin1Str.cmp a b = .eq ↔ a.as_bytes = b.as_bytes) ∧
    (∀ a b : Latin1Str,
      Latin1Str.cmp a b = .lt ↔ List.Lex (· < ·) a.as_bytes b.as_bytes) ∧
    (∀ a b : Latin1String, Latin1String.eq a b = true ↔ a.as_bytes = b.as_bytes) ∧
    (∀ a b : Latin1String, Latin1String.cmp a b = .eq ↔ a.as_bytes = b.as_bytes) ∧
    (∀ a b : Latin1String,
      Latin1String.cmp a b = .lt ↔ List.Lex (· < ·) a.as_bytes b.as_bytes) := by
  refine ⟨fun a b => ?_, fun a b => ?_, fun a b => ?_,
          fun a b => ?_, fun a b => ?_, fun a b => ?_⟩
  · constructor
    · intro h
      exact beq_iff_eq.mp h
    · intro h
      exact beq_iff_eq.mpr h
  · exact sliceCmp_eq_iff
  · exact sliceCmp_lt_iff
  · constructor
    · intro h
      exact beq_iff_eq.mp h
    · intro h
      exact beq_iff_eq.mpr h
  · exact sliceCmp_eq_iff
  · exact sliceCmp_lt_iff

/-- Witness for C7 at concrete one-byte values. -/
theorem eq_ord_bytewise_w :
    Latin1Str.eq ⟨[0x61]⟩ ⟨[0x61]⟩ = true :=
  (eq_ord_bytewise.1 ⟨[0x61]⟩ ⟨[0x61]⟩).mpr rfl

/-- For bytes without a leading byte-order mark, the decode-then-encode
round trip returns the input unchanged: every byte's windows-1252 scalar
value encodes back to that byte. -/
theorem encodeDecode_id {b : List Nat} (hbom : startsWithBOM b = false)
    (hb : ∀ x ∈ b, x < 256) :
    encodeDecode b = b := by
  unfold encodeDecode
  have h₁ : (Latin1Str.decode ⟨b⟩).value = b.map w1252DecodeByte :=
    decode_value_of_noBOM hbom
  rw [h₁, encode_value_bytes]
  by_cases hall : (b.map w1252DecodeByte).all (· < 0x80)
  · rw [if_pos hall]
    have hba : ∀ x ∈ b, x < 0x80 := by
      intro x hx
      by_contra hge
      have hd := (all_ascii_iff _).mp hall (w1252DecodeByte x)
        (List.mem_map_of_mem _ hx)
      have := w1252DecodeByte_ge (by omega) (hb x hx)
      omega
    have hmap : b.map w1252DecodeByte = b :=
      calc b.map w1252DecodeByte
          = b.map id :=
            List.map_congr_left fun x hx => w1252DecodeByte_of_ascii (hba x hx)
        _ = b := List.map_id b
    rw [hmap, utf8_of_ascii hba]
  · rw [if_neg hall]
    exact w1252EncodeBytes_map_decode hb

/-- C8 counterexample: the nul-free bytes
`[EF BB BF C3 AF C2 BB C2 BF]` begin with a UTF-8 BOM, so decode strips
the BOM and UTF-8-decodes the remainder to the text "ï»¿"; encoding that
back gives `[EF BB BF]`, and the second decode/encode round strips those
bytes as a bare BOM, yielding `[]` — idempotency after one application
fails. -/
theorem encode_decode_not_idempotent :
    (0 : Nat) ∉ [0xEF, 0xBB, 0xBF, 0xC3, 0xAF, 0xC2, 0xBB, 0xC2, 0xBF] ∧
    encodeDecode (encodeDecode [0xEF, 0xBB, 0xBF, 0xC3, 0xAF, 0xC2, 0xBB, 0xC2, 0xBF]) ≠
      encodeDecode [0xEF, 0xBB, 0xBF, 0xC3, 0xAF, 0xC2, 0xBB, 0xC2, 0xBF] := by decide

/-- C8 (amended): for nul-free byte sequences that do not begin with a
byte-order mark, decode-then-encode returns the bytes unchanged and is in
particular idempotent after one application. -/
theorem encode_decode_idempotent (b : List Nat) (h₀ : 0 ∉ b)
    (hbom : startsWithBOM b = false) (hb : ∀ x ∈ b, x < 256) :
    encodeDecode (encodeDecode b) = encodeDecode b := by
  simp only [encodeDecode_id hbom hb]

/-- Witness for C8 at the bytes of "Fü". -/
theorem encode_decode_idempotent_w :
    encodeDecode (encodeDecode [0x46, 0xFC]) = encodeDecode [0x46, 0xFC] :=
  encode_decode_idempotent [0x46, 0xFC] (by decide) (by decide) (by decide)

/-- C9 counterexample: in `[EF BB BF FC]` the byte 0xFC sits at index 3,
but decode sniffs the UTF-8 BOM and UTF-8-decodes the remainder `[FC]`
to U+FFFD, so the decoded text contains no "ü" at all, let alone at the
corresponding position. -/
theorem decode_bom_fc_no_uuml :
    [0xEF, 0xBB, 0xBF, 0xFC].getD 3 0 = 0xFC ∧
    (0xFC : Nat) ∉ (Latin1Str.decode ⟨[0xEF, 0xBB, 0xBF, 0xFC]⟩).value := by decide

/-- C9 (amended): on bytes that do not begin with a byte-order mark, a
byte 0xFC decodes to the scalar value U+00FC ("ü") at the same position;
and encoding the text "ü" yields exactly the byte 0xFC. -/
theorem decode_uuml_encode_uuml :
    (∀ (b : List Nat) (i : Nat), startsWithBOM b = false → b.getD i 0 = 0xFC →
        ((Latin1Str.decode ⟨b⟩).value).getD i 0 = 0xFC) ∧
    (Latin1String.encode [0xFC]).value.as_bytes = [0xFC] := by
  constructor
  · intro b i hbom h
    rw [decode_value_of_noBOM hbom]
    exact getD_map_decode h
  · decide

/-- Witness for C9 at the bytes of "Fü", position 1. -/
theorem decode_uuml_encode_uuml_w :
    ((Latin1Str.decode ⟨[0x46, 0xFC]⟩).value).getD 1 0 = 0xFC :=
  decode_uuml_encode_uuml.1 [0x46, 0xFC] 1 (by decide) (by decide)

/-- C10: the deprecated `Latin1Str::new` returns exactly the value of
`Latin1Str::from_bytes_until_nul` on every input. -/
theorem new_eq_from_bytes_until_nul (b : List Nat) :
    Latin1Str.new b = Latin1Str.from_bytes_until_nul b := rfl

/-- Witness for C10 at a concrete input. -/
theorem new_eq_from_bytes_until_nul_w :
    Latin1Str.new [0x61, 0, 0x62] = Latin1Str.from_bytes_until_nul [0x61, 0, 0x62] :=
  new_eq_from_bytes_until_nul [0x61, 0, 0x62]

end Latin1
